import Mathlib

/-
Verification of bev::basic_string_view (include/bev/string_view.hpp) against its
natural-language specification.

The embedding models the instantiation CharT = char with the default
std::char_traits: a character unit is a Nat value, ordered and compared by the
natural order on Nat, with 0 the zero character.  Memory is a function from
addresses to character values; a view is the pair of its 64-bit length word
len_ (which may carry the safe-deref flag bit) and its data pointer str_,
exactly as in the source:  size_t len_; const CharT* str_;

All size_t arithmetic is done on Nat with explicit wraparound modulo 2^64 where
the source can overflow.  Every definition is translated from the source file;
the doc comment of each names the member it embeds.
-/

namespace BevSV

/-- Bound of the 64-bit size_t word: the source only supports 64-bit size_t. -/
def M64 : Nat := 2 ^ 64

/-- The sentinel npos = size_type(-1), the maximal representable position. -/
def npos : Nat := M64 - 1

/-- Unsigned 64-bit subtraction a - b with wraparound, for words a, b < M64. -/
def usub (a b : Nat) : Nat := (a + M64 - b) % M64

/-- The flag mask of the source, line 65: safederef_flag_mask = 1ull << (sizeof(size_t)-1).
    With sizeof(size_t) = 8 this is 1 <<< 7 = 2^7 = 128: bit 7 of len_, not the
    most significant bit. -/
def safederef_flag_mask : Nat := 2 ^ 7

/-- set_safederef_bit(x) = x | safederef_flag_mask. -/
def set_safederef_bit (x : Nat) : Nat := x ||| safederef_flag_mask

/-- clear_safederef_bit(x) = x & ~safederef_flag_mask; the size_t complement of the
    mask is its xor with the all-ones word. -/
def clear_safederef_bit (x : Nat) : Nat := x &&& (npos ^^^ safederef_flag_mask)

/-- test_safederef_bit(x) = x & safederef_flag_mask, converted to bool. -/
def test_safederef_bit (x : Nat) : Bool := x &&& safederef_flag_mask != 0

/-- Memory: address to character value. -/
abbrev Mem := Nat → Nat

/-- The view value: the raw 64-bit length word and the data pointer, as in the
    source (size_t len_; const CharT* str_;). -/
structure SV where
  len_ : Nat
  str_ : Nat
  deriving DecidableEq

/-- length() = clear_safederef_bit(len_). -/
def length (v : SV) : Nat := clear_safederef_bit v.len_

/-- The constructor basic_string_view(const CharT* str, size_type len): it stores
    the given length word verbatim in len_. -/
def ofPtrLen (str : Nat) (len : Nat) : SV := ⟨len, str⟩

/-- is_cstring(): if test_safederef_bit(len_), returns str_[length()] != 0, else
    false.  Note the source really compares with != 0, not == 0. -/
def is_cstring (mem : Mem) (v : SV) : Bool :=
  if test_safederef_bit v.len_ then mem (v.str_ + length v) != 0 else false

/-- substr(pos, n): rlen = min(n, length() - pos) with unsigned 64-bit subtraction;
    no bounds check is performed and nothing is thrown; when the source view's flag
    bit tests set the result is built through the private tagged constructor, which
    sets the flag bit on the stored rlen, and otherwise through the public verbatim
    constructor. -/
def substr (v : SV) (pos n : Nat) : SV :=
  let rlen := min n (usub (length v) pos)
  if test_safederef_bit v.len_ then ⟨set_safederef_bit rlen, v.str_ + pos⟩
  else ⟨rlen, v.str_ + pos⟩

/-- remove_prefix(n): str_ += n; the second statement this->length() -= n
    compound-assigns the prvalue temporary returned by length(), so the member
    len_ is not modified (as written the statement is ill-formed C++ and is
    rejected when the member is instantiated). -/
def removePrefix (v : SV) (n : Nat) : SV := ⟨v.len_, v.str_ + n⟩

/-- remove_suffix(n): its only statement is this->length() -= n, which likewise
    does not touch len_ (ill-formed as written), so the view is unchanged. -/
def removeSuffix (v : SV) (_n : Nat) : SV := ⟨v.len_, v.str_⟩

/-- Traits::compare(s1, s2, n): the constexpr char_traits loop comparing n
    character units in the unit's natural order; it returns -1 at the first
    position where s1 is smaller, 1 at the first position where s1 is larger,
    and 0 when all n units are equal. -/
def traits_compare (mem : Mem) (a b : Nat) : Nat → Int
  | 0 => 0
  | n + 1 =>
    if mem a < mem b then -1
    else if mem b < mem a then 1
    else traits_compare mem (a + 1) (b + 1) n

/-- s_compare(n1, n2): difference_type diff = n1 - n2, i.e. the unsigned 64-bit
    difference reinterpreted as a signed two's-complement value, then clamped to
    the int range [-2^31, 2^31 - 1]. -/
def s_compare (n1 n2 : Nat) : Int :=
  let u := usub n1 n2
  let diff : Int := if u < 2 ^ 63 then (u : Int) else (u : Int) - 2 ^ 64
  if 2 ^ 31 - 1 < diff then 2 ^ 31 - 1
  else if diff < -2 ^ 31 then -2 ^ 31
  else diff

/-- compare(str): rlen = min(length(), str.length()); the traits comparison of the
    first rlen units, and when that is 0 the tie-break s_compare(length(), str.length()). -/
def compare (mem : Mem) (v w : SV) : Int :=
  let rlen := min (length v) (length w)
  let ret := traits_compare mem v.str_ w.str_ rlen
  if ret = 0 then s_compare (length v) (length w) else ret

/-- compare(pos1, n1, str) = substr(pos1, n1).compare(str). -/
def compare_sub (mem : Mem) (v : SV) (pos1 n1 : Nat) (w : SV) : Int :=
  compare mem (substr v pos1 n1) w

/-- The scan loop of find(const CharT*, size_type, size_type):
    for (; pos <= last; ++pos) with last = length() - n, returning the first pos
    whose head unit is eq to the pattern's head and whose remaining n - 1 units
    traits-compare equal, and npos when the loop exhausts. -/
def findLoop (mem : Mem) (base pat n last pos : Nat) : Nat :=
  if h : pos ≤ last then
    if mem (base + pos) = mem pat ∧ traits_compare mem (base + pos + 1) (pat + 1) (n - 1) = 0 then
      pos
    else findLoop mem base pat n last (pos + 1)
  else npos
termination_by last + 1 - pos
decreasing_by omega

/-- find(const CharT* str, size_type pos, size_type n): the n == 0 special case,
    then the guarded scan loop when n <= length() (the guard makes the size_t
    subtraction length() - n exact), npos otherwise. -/
def find (mem : Mem) (v : SV) (pstr pos n : Nat) : Nat :=
  if n = 0 then (if pos ≤ length v then pos else npos)
  else if n ≤ length v then findLoop mem v.str_ pstr n (length v - n) pos
  else npos

/-- find(basic_string_view str, size_type pos) = find(str.str_, pos, str.length()). -/
def findSV (mem : Mem) (v p : SV) (pos : Nat) : Nat :=
  find mem v p.str_ pos (length p)

/-- The pattern of n units at address pstr occurs in v at index i: the claim's
    notion of the characters of v at positions i .. i + n - 1 equalling the pattern. -/
def MatchAt (mem : Mem) (v : SV) (pstr n i : Nat) : Prop :=
  i + n ≤ length v ∧ ∀ k < n, mem (v.str_ + (i + k)) = mem (pstr + k)

/-- The fixed 64-bit Murmur multiplier ((size_t)0xc6a4a793 << 32) + 0x5bd1e995. -/
def mul : Nat := 0xc6a4a793 * 2 ^ 32 + 0x5bd1e995

/-- shift_mix_(v) = v ^ (v >> 47). -/
def shift_mix (v : Nat) : Nat := v ^^^ (v >>> 47)

/-- load_bytes_(p, n): packs the n bytes at p into an integer; unwinding the
    source's high-to-low accumulation, p[0] ends up least significant. -/
def load_bytes (mem : Mem) (p : Nat) : Nat → Nat
  | 0 => 0
  | n + 1 => mem (p + n) * 256 ^ n + load_bytes mem p n

/-- unaligned_load_(p): memcpy of 8 bytes at p into a size_t; on the supported
    little-endian layout this is the 8-byte value with p[0] least significant. -/
def unaligned_load (mem : Mem) (p : Nat) : Nat := load_bytes mem p 8

/-- The chunk loop of hash_bytes_: for (p = buf; p != end; p += 8) over cnt
    8-byte chunks, each folded into the accumulator by xor and multiplication
    modulo 2^64. -/
def hashChunks (mem : Mem) : Nat → Nat → Nat → Nat
  | _, h, 0 => h
  | p, h, cnt + 1 =>
    hashChunks mem (p + 8)
      (((h ^^^ (shift_mix (unaligned_load mem p * mul % M64) * mul % M64)) * mul) % M64) cnt

/-- hash_bytes_(ptr, len, seed): Murmur for 64-bit size_t: the accumulator is
    seeded with seed ^ (len * mul), the len & ~7 aligned bytes are processed in
    8-byte chunks, the 1-7 trailing bytes are folded in if len & 7 != 0, and the
    result is finalised with two more shift-mix steps. -/
def hash_bytes (mem : Mem) (ptr len seed : Nat) : Nat :=
  let len_aligned := len &&& (npos ^^^ 7)
  let endp := ptr + len_aligned
  let h0 := seed ^^^ (len * mul % M64)
  let h1 := hashChunks mem ptr h0 (len_aligned / 8)
  let h2 := if len &&& 7 != 0 then ((h1 ^^^ load_bytes mem endp (len &&& 7)) * mul) % M64 else h1
  shift_mix ((shift_mix h2 * mul) % M64)

/-- std::hash for bev views: hash_bytes_(str.str_, str.length()*sizeof(CharT))
    with sizeof(CharT) = 1 for CharT = char.  The source call site omits the
    third (seed) argument of hash_bytes_, so the seed is a parameter here; every
    statement proved below holds for any seed. -/
def hashSV (mem : Mem) (seed : Nat) (v : SV) : Nat :=
  hash_bytes mem v.str_ (length v * 1) seed

/-! Helper lemmas about the 64-bit representation. -/

lemma usub_of_le {a b : Nat} (h : b ≤ a) (ha : a < M64) : usub a b = a - b := by
  simp only [M64] at ha
  simp only [usub, M64]
  omega

lemma length_lt_npos (v : SV) : length v < npos := by
  have h1 : length v ≤ npos ^^^ safederef_flag_mask := Nat.and_le_right
  have h2 : npos ^^^ safederef_flag_mask < npos := by decide
  omega

lemma npos_lt_MOD : npos < M64 := by decide

lemma length_lt_MOD (v : SV) : length v < M64 := by
  have h1 := length_lt_npos v
  have h2 := npos_lt_MOD
  omega

lemma clear_set (x : Nat) : clear_safederef_bit (set_safederef_bit x) = clear_safederef_bit x := by
  simp only [clear_safederef_bit, set_safederef_bit, safederef_flag_mask, npos, M64]
  apply Nat.eq_of_testBit_eq
  intro i
  simp only [Nat.testBit_and, Nat.testBit_or, Nat.testBit_xor, Nat.testBit_two_pow_sub_one]
  by_cases h : i = 7
  · subst h
    have h128 : Nat.testBit 128 7 = true := by decide
    simp [h128]
  · have h128 : Nat.testBit 128 i = false := by
      rw [show (128 : Nat) = 2 ^ 7 by norm_num]
      exact Nat.testBit_two_pow_of_ne (fun he => h he.symm)
    simp [h128]

lemma test_set (x : Nat) : test_safederef_bit (set_safederef_bit x) = true := by
  simp only [test_safederef_bit, set_safederef_bit, safederef_flag_mask]
  have h7 : ((x ||| 2 ^ 7) &&& 2 ^ 7).testBit 7 = true := by
    have h128 : Nat.testBit 128 7 = true := by decide
    simp [Nat.testBit_and, Nat.testBit_or, h128]
  have hne : (x ||| 2 ^ 7) &&& 2 ^ 7 ≠ 0 := by
    intro h0
    rw [h0] at h7
    simp at h7
  simpa using hne

/-! Helper lemmas about the traits comparison loop. -/

lemma tc_zero_iff (mem : Mem) : ∀ (n a b : Nat),
    traits_compare mem a b n = 0 ↔ ∀ k < n, mem (a + k) = mem (b + k) := by
  intro n
  induction n with
  | zero => intro a b; simp [traits_compare]
  | succ n ih =>
    intro a b
    simp only [traits_compare]
    by_cases h1 : mem a < mem b
    · rw [if_pos h1]
      constructor
      · intro h; exact absurd h (by norm_num)
      · intro hall
        have h0 := hall 0 (Nat.succ_pos n)
        simp at h0
        omega
    · rw [if_neg h1]
      by_cases h2 : mem b < mem a
      · rw [if_pos h2]
        constructor
        · intro h; exact absurd h (by norm_num)
        · intro hall
          have h0 := hall 0 (Nat.succ_pos n)
          simp at h0
          omega
      · rw [if_neg h2]
        have heq : mem a = mem b := by omega
        rw [ih]
        constructor
        · intro hrec k hk
          cases k with
          | zero => simpa using heq
          | succ k =>
            have := hrec k (by omega)
            rw [show a + (k + 1) = a + 1 + k by omega, show b + (k + 1) = b + 1 + k by omega]
            exact this
        · intro hall k hk
          have := hall (k + 1) (by omega)
          rw [show a + 1 + k = a + (k + 1) by omega, show b + 1 + k = b + (k + 1) by omega]
          exact this

lemma tc_antisym (mem : Mem) : ∀ (n a b : Nat),
    traits_compare mem b a n = -traits_compare mem a b n := by
  intro n
  induction n with
  | zero => intro a b; simp [traits_compare]
  | succ n ih =>
    intro a b
    simp only [traits_compare]
    rcases Nat.lt_trichotomy (mem a) (mem b) with h | h | h
    · simp [h, Nat.lt_asymm h]
    · simp only [h, lt_irrefl, if_false]
      exact ih (a + 1) (b + 1)
    · simp [h, Nat.lt_asymm h]

lemma tc_neg_of_mismatch (mem : Mem) : ∀ (k n a b : Nat), k < n →
    (∀ j < k, mem (a + j) = mem (b + j)) → mem (a + k) < mem (b + k) →
    traits_compare mem a b n = -1 := by
  intro k
  induction k with
  | zero =>
    intro n a b hk hprev hm
    cases n with
    | zero => omega
    | succ n =>
      simp only [traits_compare]
      simp only [Nat.add_zero] at hm
      rw [if_pos hm]
  | succ k ih =>
    intro n a b hk hprev hm
    cases n with
    | zero => omega
    | succ n =>
      have heq : mem a = mem b := by simpa using hprev 0 (Nat.succ_pos k)
      simp only [traits_compare]
      rw [if_neg (by omega), if_neg (by omega)]
      apply ih n (a + 1) (b + 1) (by omega)
      · intro j hj
        have := hprev (j + 1) (by omega)
        rw [show a + 1 + j = a + (j + 1) by omega, show b + 1 + j = b + (j + 1) by omega]
        exact this
      · rw [show a + 1 + k = a + (k + 1) by omega, show b + 1 + k = b + (k + 1) by omega]
        exact hm

lemma tc_pos_of_mismatch (mem : Mem) (k n a b : Nat) (hk : k < n)
    (hprev : ∀ j < k, mem (a + j) = mem (b + j)) (hm : mem (b + k) < mem (a + k)) :
    traits_compare mem a b n = 1 := by
  have h := tc_neg_of_mismatch mem k n b a hk (fun j hj => (hprev j hj).symm) hm
  have h2 := tc_antisym mem n b a
  rw [h] at h2
  omega

/-! Helper lemmas about s_compare. -/

lemma s_compare_exact (n1 n2 : Nat) (h1 : n1 < 2 ^ 63) (h2 : n2 < 2 ^ 63) :
    s_compare n1 n2 = max (-2 ^ 31) (min (2 ^ 31 - 1) ((n1 : Int) - (n2 : Int))) := by
  simp only [s_compare, usub, M64]
  rw [max_def, min_def]
  split_ifs <;> omega

lemma s_compare_self (n : Nat) : s_compare n n = 0 := by
  simp only [s_compare, usub, M64]
  split_ifs <;> omega

lemma s_compare_antisym (n1 n2 : Nat)
    (hd1 : (n1 : Int) - n2 < 2 ^ 31) (hd2 : (n2 : Int) - n1 < 2 ^ 31) :
    s_compare n1 n2 = -s_compare n2 n1 := by
  simp only [s_compare, usub, M64]
  split_ifs <;> omega

/-! Helper lemmas about the find scan loop. -/

lemma findLoop_le (mem : Mem) (base pat n last : Nat) :
    ∀ (d pos i : Nat), i - pos = d → pos ≤ i → i ≤ last →
      (mem (base + i) = mem pat ∧ traits_compare mem (base + i + 1) (pat + 1) (n - 1) = 0) →
      findLoop mem base pat n last pos ≤ i := by
  intro d
  induction d with
  | zero =>
    intro pos i hd hpi hil hP
    have he : pos = i := by omega
    subst he
    rw [findLoop, dif_pos (by omega : pos ≤ last), if_pos hP]
  | succ d ih =>
    intro pos i hd hpi hil hP
    rw [findLoop, dif_pos (by omega : pos ≤ last)]
    by_cases hc : mem (base + pos) = mem pat ∧
        traits_compare mem (base + pos + 1) (pat + 1) (n - 1) = 0
    · rw [if_pos hc]
      omega
    · rw [if_neg hc]
      exact ih (pos + 1) i (by omega) (by omega) hil hP

lemma findLoop_found (mem : Mem) (base pat n last : Nat) :
    ∀ (d pos : Nat), last + 1 - pos = d → findLoop mem base pat n last pos ≠ npos →
      pos ≤ findLoop mem base pat n last pos ∧ findLoop mem base pat n last pos ≤ last ∧
      mem (base + findLoop mem base pat n last pos) = mem pat ∧
      traits_compare mem (base + findLoop mem base pat n last pos + 1) (pat + 1) (n - 1) = 0 := by
  intro d
  induction d with
  | zero =>
    intro pos hd hne
    rw [findLoop, dif_neg (by omega : ¬ pos ≤ last)] at hne
    exact absurd rfl hne
  | succ d ih =>
    intro pos hd hne
    rw [findLoop, dif_pos (by omega : pos ≤ last)] at hne ⊢
    by_cases hc : mem (base + pos) = mem pat ∧
        traits_compare mem (base + pos + 1) (pat + 1) (n - 1) = 0
    · rw [if_pos hc] at hne ⊢
      exact ⟨le_rfl, by omega, hc.1, hc.2⟩
    · rw [if_neg hc] at hne ⊢
      have h := ih (pos + 1) (by omega) hne
      exact ⟨by omega, h.2.1, h.2.2⟩

lemma find_le_of_match (mem : Mem) (v : SV) (pstr pos nn i : Nat)
    (hpi : pos ≤ i) (hm : MatchAt mem v pstr nn i) :
    find mem v pstr pos nn ≤ i := by
  obtain ⟨hlen, hchars⟩ := hm
  unfold find
  by_cases h0 : nn = 0
  · subst h0
    rw [if_pos rfl, if_pos (by omega : pos ≤ length v)]
    exact hpi
  · rw [if_neg h0, if_pos (by omega : nn ≤ length v)]
    apply findLoop_le mem v.str_ pstr nn (length v - nn) (i - pos) pos i rfl hpi (by omega)
    constructor
    · have h := hchars 0 (by omega)
      simpa using h
    · rw [tc_zero_iff]
      intro k hk
      have h := hchars (k + 1) (by omega)
      rw [show v.str_ + i + 1 + k = v.str_ + (i + (k + 1)) by omega,
          show pstr + 1 + k = pstr + (k + 1) by omega]
      exact h

lemma find_found (mem : Mem) (v : SV) (pstr pos nn : Nat)
    (hne : find mem v pstr pos nn ≠ npos) :
    pos ≤ find mem v pstr pos nn ∧ MatchAt mem v pstr nn (find mem v pstr pos nn) := by
  unfold find at hne ⊢
  by_cases h0 : nn = 0
  · subst h0
    rw [if_pos rfl] at hne ⊢
    by_cases hp : pos ≤ length v
    · rw [if_pos hp] at hne ⊢
      exact ⟨le_rfl, by omega, fun k hk => absurd hk (Nat.not_lt_zero k)⟩
    · rw [if_neg hp] at hne
      exact absurd rfl hne
  · rw [if_neg h0] at hne ⊢
    by_cases h1 : nn ≤ length v
    · rw [if_pos h1] at hne ⊢
      set r := findLoop mem v.str_ pstr nn (length v - nn) pos with hr
      obtain ⟨ha, hb, hc1, hc2⟩ :=
        findLoop_found mem v.str_ pstr nn (length v - nn) ((length v - nn) + 1 - pos) pos rfl hne
      refine ⟨ha, by omega, ?_⟩
      intro k hk
      cases k with
      | zero => simpa using hc1
      | succ k =>
        have h := (tc_zero_iff mem (nn - 1) (v.str_ + r + 1) (pstr + 1)).1 hc2 k (by omega)
        rw [show v.str_ + (r + (k + 1)) = v.str_ + r + 1 + k by omega,
            show pstr + (k + 1) = pstr + 1 + k by omega]
        exact h
    · rw [if_neg h1] at hne
      exact absurd rfl hne

/-- C7: for every view v, pattern view p and start position pos, v.find(p, pos)
    returns the smallest index i >= pos at which the length p characters of v
    starting at i equal the pattern (conjuncts three and four: when the result is
    npos no such index exists, and otherwise the result is such an index and is
    minimal among them); when the pattern is empty it returns pos if
    pos <= v.length() and the sentinel npos otherwise (first conjunct); and when
    pos > v.length() it returns the sentinel npos (second conjunct). -/
theorem find_characterization (mem : Mem) (v p : SV) (pos : Nat) :
    (length p = 0 → findSV mem v p pos = if pos ≤ length v then pos else npos) ∧
    (length v < pos → findSV mem v p pos = npos) ∧
    (findSV mem v p pos = npos → ∀ i, pos ≤ i → ¬MatchAt mem v p.str_ (length p) i) ∧
    (findSV mem v p pos ≠ npos →
      pos ≤ findSV mem v p pos ∧ MatchAt mem v p.str_ (length p) (findSV mem v p pos) ∧
      ∀ i, pos ≤ i → MatchAt mem v p.str_ (length p) i → findSV mem v p pos ≤ i) := by
  refine ⟨?_, ?_, ?_, ?_⟩
  · intro h0
    unfold findSV find
    rw [if_pos h0]
  · intro hlt
    unfold findSV find
    by_cases h0 : length p = 0
    · rw [if_pos h0, if_neg (by omega : ¬ pos ≤ length v)]
    · rw [if_neg h0]
      by_cases h1 : length p ≤ length v
      · rw [if_pos h1]
        rw [findLoop, dif_neg (by omega : ¬ pos ≤ length v - length p)]
      · rw [if_neg h1]
  · intro hnp i hpi hm
    have hle := find_le_of_match mem v p.str_ pos (length p) i hpi hm
    unfold findSV at hnp
    rw [hnp] at hle
    obtain ⟨h1, _⟩ := hm
    have h2 := length_lt_npos v
    omega
  · intro hne
    unfold findSV at hne ⊢
    obtain ⟨h1, h2⟩ := find_found mem v p.str_ pos (length p) hne
    exact ⟨h1, h2, fun i hpi hm => find_le_of_match mem v p.str_ pos (length p) i hpi hm⟩

/-- C9: the find round-trip property: for every view v and indices
    0 <= i <= j <= v.length(), searching v from position 0 for the pattern
    v.substr(i, j - i) finds an occurrence no later than i. -/
theorem find_substr_roundtrip (mem : Mem) (v : SV) (i j : Nat)
    (hij : i ≤ j) (hj : j ≤ length v) :
    findSV mem v (substr v i (j - i)) 0 ≤ i := by
  have hvM := length_lt_MOD v
  have hsub : usub (length v) i = length v - i := usub_of_le (by omega) hvM
  have hrlen : min (j - i) (usub (length v) i) = j - i := by
    rw [hsub]
    omega
  have hstr : (substr v i (j - i)).str_ = v.str_ + i := by
    simp only [substr]
    split <;> rfl
  have he : substr v i (j - i) =
      if test_safederef_bit v.len_ = true then
        (⟨set_safederef_bit (j - i), v.str_ + i⟩ : SV)
      else (⟨j - i, v.str_ + i⟩ : SV) := by
    simp only [substr]
    rw [hrlen]
  have hlen : length (substr v i (j - i)) ≤ j - i := by
    rw [he]
    by_cases hc : test_safederef_bit v.len_ = true
    · rw [if_pos hc]
      show clear_safederef_bit (set_safederef_bit (j - i)) ≤ j - i
      rw [clear_set]
      exact Nat.and_le_left
    · rw [if_neg hc]
      show clear_safederef_bit (j - i) ≤ j - i
      exact Nat.and_le_left
  have hm : MatchAt mem v (substr v i (j - i)).str_ (length (substr v i (j - i))) i := by
    constructor
    · omega
    · intro k hk
      rw [hstr, show v.str_ + i + k = v.str_ + (i + k) by omega]
  exact find_le_of_match mem v (substr v i (j - i)).str_ 0 (length (substr v i (j - i))) i
    (Nat.zero_le i) hm

/-- C9 witness: the round-trip theorem applied at the concrete view of length 5
    over the memory a mod 4, with i = 1 and j = 3. -/
theorem find_substr_roundtrip_witness :
    (1 : Nat) ≤ 3 ∧ 3 ≤ length (⟨5, 0⟩ : SV) ∧
    findSV (fun a => a % 4) (⟨5, 0⟩ : SV) (substr (⟨5, 0⟩ : SV) 1 (3 - 1)) 0 ≤ 1 :=
  ⟨by decide, by decide, find_substr_roundtrip (fun a => a % 4) ⟨5, 0⟩ 1 3 (by decide) (by decide)⟩

/-- C7 witness: the find characterisation applied at the concrete view of
    length 4 over the memory a mod 3, the pattern view of length 1 at address 3,
    and start position 1. -/
theorem find_characterization_witness :
    (length (⟨1, 3⟩ : SV) = 0 →
      findSV (fun a => a % 3) (⟨4, 0⟩ : SV) (⟨1, 3⟩ : SV) 1 =
        if 1 ≤ length (⟨4, 0⟩ : SV) then 1 else npos) ∧
    (length (⟨4, 0⟩ : SV) < 1 → findSV (fun a => a % 3) (⟨4, 0⟩ : SV) (⟨1, 3⟩ : SV) 1 = npos) ∧
    (findSV (fun a => a % 3) (⟨4, 0⟩ : SV) (⟨1, 3⟩ : SV) 1 = npos →
      ∀ i, 1 ≤ i →
        ¬MatchAt (fun a => a % 3) (⟨4, 0⟩ : SV) (⟨1, 3⟩ : SV).str_ (length (⟨1, 3⟩ : SV)) i) ∧
    (findSV (fun a => a % 3) (⟨4, 0⟩ : SV) (⟨1, 3⟩ : SV) 1 ≠ npos →
      1 ≤ findSV (fun a => a % 3) (⟨4, 0⟩ : SV) (⟨1, 3⟩ : SV) 1 ∧
      MatchAt (fun a => a % 3) (⟨4, 0⟩ : SV) (⟨1, 3⟩ : SV).str_ (length (⟨1, 3⟩ : SV))
        (findSV (fun a => a % 3) (⟨4, 0⟩ : SV) (⟨1, 3⟩ : SV) 1) ∧
      ∀ i, 1 ≤ i →
        MatchAt (fun a => a % 3) (⟨4, 0⟩ : SV) (⟨1, 3⟩ : SV).str_ (length (⟨1, 3⟩ : SV)) i →
        findSV (fun a => a % 3) (⟨4, 0⟩ : SV) (⟨1, 3⟩ : SV) 1 ≤ i) :=
  find_characterization (fun a => a % 3) ⟨4, 0⟩ ⟨1, 3⟩ 1

/-! Helper lemmas about the hash. -/

lemma load_bytes_congr (m1 m2 : Mem) (p1 p2 : Nat) :
    ∀ n, (∀ o < n, m1 (p1 + o) = m2 (p2 + o)) → load_bytes m1 p1 n = load_bytes m2 p2 n := by
  intro n
  induction n with
  | zero => intro _; rfl
  | succ n ih =>
    intro h
    simp only [load_bytes]
    rw [h n (by omega), ih (fun o ho => h o (by omega))]

lemma hashChunks_congr (m1 m2 : Mem) :
    ∀ (cnt p1 p2 hh : Nat), (∀ o < 8 * cnt, m1 (p1 + o) = m2 (p2 + o)) →
      hashChunks m1 p1 hh cnt = hashChunks m2 p2 hh cnt := by
  intro cnt
  induction cnt with
  | zero => intro p1 p2 hh _; rfl
  | succ cnt ih =>
    intro p1 p2 hh hmem
    simp only [hashChunks, unaligned_load]
    rw [load_bytes_congr m1 m2 p1 p2 8 (fun o ho => hmem o (by omega))]
    apply ih
    intro o ho
    have h8 := hmem (8 + o) (by omega)
    rw [show p1 + 8 + o = p1 + (8 + o) by omega, show p2 + 8 + o = p2 + (8 + o) by omega]
    exact h8

lemma and7_eq (x : Nat) : x &&& 7 = x % 8 := by
  rw [show (7 : Nat) = 2 ^ 3 - 1 by norm_num, Nat.and_pow_two_sub_one_eq_mod]

lemma aligned_mod8 (x : Nat) : (x &&& (npos ^^^ 7)) % 8 = 0 := by
  rw [← and7_eq, Nat.and_assoc]
  have h : (npos ^^^ 7) &&& 7 = 0 := by decide
  rw [h, Nat.and_zero]

lemma hash_bytes_congr (m1 m2 : Mem) (p1 p2 len seed : Nat)
    (h : ∀ o < len, m1 (p1 + o) = m2 (p2 + o)) :
    hash_bytes m1 p1 len seed = hash_bytes m2 p2 len seed := by
  have hA1 : (len &&& (npos ^^^ 7)) % 8 = 0 := aligned_mod8 len
  have hA2 : len &&& (npos ^^^ 7) ≤ len := Nat.and_le_left
  have hT : len &&& 7 = len % 8 := and7_eq len
  simp only [hash_bytes]
  rw [hashChunks_congr m1 m2 ((len &&& (npos ^^^ 7)) / 8) p1 p2 _
    (fun o ho => h o (by omega))]
  rw [load_bytes_congr m1 m2 (p1 + (len &&& (npos ^^^ 7))) (p2 + (len &&& (npos ^^^ 7)))
    (len &&& 7) (fun o ho => by
      have hx := h ((len &&& (npos ^^^ 7)) + o) (by omega)
      rw [show p1 + (len &&& (npos ^^^ 7)) + o = p1 + ((len &&& (npos ^^^ 7)) + o) by omega,
          show p2 + (len &&& (npos ^^^ 7)) + o = p2 + ((len &&& (npos ^^^ 7)) + o) by omega]
      exact hx)]

/-- C8: the hash depends only on the character content and the length: for any
    two views of equal length over byte-identical content (in possibly different
    memories, as produced by different construction paths, and regardless of
    differing witness flag bits in len_), std::hash gives the same value, for
    every seed. -/
theorem hash_content_congr (m1 m2 : Mem) (seed : Nat) (v w : SV)
    (hlen : length v = length w)
    (hchars : ∀ k < length v, m1 (v.str_ + k) = m2 (w.str_ + k)) :
    hashSV m1 seed v = hashSV m2 seed w := by
  unfold hashSV
  have h := hash_bytes_congr m1 m2 v.str_ w.str_ (length v * 1) seed
    (fun o ho => hchars o (by omega))
  rw [h, hlen]

/-- C8 witness: the hash congruence applied to a view of length 3 with a clear
    witness bit (len_ = 3) and a view with the flag bit set (len_ = 131, so its
    length is also 3) over byte-identical content in two different memories. -/
theorem hash_content_congr_witness :
    length (⟨3, 0⟩ : SV) = length (⟨131, 50⟩ : SV) ∧
    (∀ k < length (⟨3, 0⟩ : SV),
      (fun a => if a < 3 then a + 7 else 0 : Mem) ((⟨3, 0⟩ : SV).str_ + k) =
      (fun a => if 50 ≤ a ∧ a < 53 then a - 43 else 9 : Mem) ((⟨131, 50⟩ : SV).str_ + k)) ∧
    hashSV (fun a => if a < 3 then a + 7 else 0) 0 (⟨3, 0⟩ : SV) =
      hashSV (fun a => if 50 ≤ a ∧ a < 53 then a - 43 else 9) 0 (⟨131, 50⟩ : SV) :=
  ⟨by decide, by decide,
   hash_content_congr (fun a => if a < 3 then a + 7 else 0)
     (fun a => if 50 ≤ a ∧ a < 53 then a - 43 else 9) 0 ⟨3, 0⟩ ⟨131, 50⟩
     (by decide) (by decide)⟩

/-- C5 counterexample: with the flag mask at bit 7 the constructor admits the
    view with len_ = 2^63, whose length() is 2^63; against the empty view the
    compared prefix is empty (min of the lengths is 0), yet compare returns
    -2^31 where the claim's clamped difference is +2^31 - 1: the signed 64-bit
    reinterpretation of the unsigned difference flips the sign at 2^63. -/
theorem compare_clamp_counterexample :
    min (length (⟨2 ^ 63, 0⟩ : SV)) (length (⟨0, 0⟩ : SV)) = 0 ∧
    compare (fun _ => 0) (⟨2 ^ 63, 0⟩ : SV) (⟨0, 0⟩ : SV) = -2 ^ 31 ∧
    max (-2 ^ 31 : Int)
      (min (2 ^ 31 - 1) ((length (⟨2 ^ 63, 0⟩ : SV) : Int) - (length (⟨0, 0⟩ : SV) : Int))) =
      2 ^ 31 - 1 ∧
    (-2 ^ 31 : Int) ≠ 2 ^ 31 - 1 := by
  refine ⟨by decide, by decide, by decide, by decide⟩

/-- C5 amended: for views whose lengths are below 2^63 (always the case for the
    intended most-significant-bit flag mask, but not for the code's bit-7 mask),
    compare compares the first min(length, other.length) character units pairwise
    in the unit's natural order (second conjunct: at a position where all earlier
    units agree, a smaller unit makes the result negative and a larger unit makes
    it positive) and when all compared units are equal it returns the difference
    of the lengths clamped to [-2^31, 2^31 - 1] (first conjunct). -/
theorem compare_spec_amended (mem : Mem) (v w : SV)
    (hv : length v < 2 ^ 63) (hw : length w < 2 ^ 63) :
    ((∀ k < min (length v) (length w), mem (v.str_ + k) = mem (w.str_ + k)) →
      compare mem v w = max (-2 ^ 31) (min (2 ^ 31 - 1) ((length v : Int) - (length w : Int)))) ∧
    (∀ k < min (length v) (length w),
      (∀ j < k, mem (v.str_ + j) = mem (w.str_ + j)) →
      (mem (v.str_ + k) < mem (w.str_ + k) → compare mem v w < 0) ∧
      (mem (w.str_ + k) < mem (v.str_ + k) → 0 < compare mem v w)) := by
  constructor
  · intro hall
    have h0 : traits_compare mem v.str_ w.str_ (min (length v) (length w)) = 0 :=
      (tc_zero_iff mem (min (length v) (length w)) v.str_ w.str_).2 hall
    simp only [compare]
    rw [h0, if_pos rfl]
    exact s_compare_exact (length v) (length w) hv hw
  · intro k hk hprev
    constructor
    · intro hlt
      have h1 : traits_compare mem v.str_ w.str_ (min (length v) (length w)) = -1 :=
        tc_neg_of_mismatch mem k (min (length v) (length w)) v.str_ w.str_ hk hprev hlt
      simp only [compare]
      rw [h1, if_neg (by norm_num)]
      norm_num
    · intro hgt
      have h1 : traits_compare mem v.str_ w.str_ (min (length v) (length w)) = 1 :=
        tc_pos_of_mismatch mem k (min (length v) (length w)) v.str_ w.str_ hk hprev hgt
      simp only [compare]
      rw [h1, if_neg (by norm_num)]
      norm_num

/-- C5 witness: the amended compare specification applied to two equal-content
    views of length 2, giving the clamped length difference 0. -/
theorem compare_spec_amended_witness :
    length (⟨2, 0⟩ : SV) < 2 ^ 63 ∧ length (⟨2, 10⟩ : SV) < 2 ^ 63 ∧
    compare (fun _ => 5) (⟨2, 0⟩ : SV) (⟨2, 10⟩ : SV) = 0 :=
  ⟨by decide, by decide, by
    have h := (compare_spec_amended (fun _ => 5) ⟨2, 0⟩ ⟨2, 10⟩ (by decide) (by decide)).1
      (fun k hk => rfl)
    exact h.trans (by decide)⟩

/-- C6 counterexample: for the view of length 2^31 against the empty view the
    clamp breaks antisymmetry: compare gives 2^31 - 1 one way and -2^31 the
    other, and 2^31 - 1 is not the negation of -2^31. -/
theorem compare_antisym_counterexample :
    compare (fun _ => 0) (⟨2 ^ 31, 0⟩ : SV) (⟨0, 0⟩ : SV) = 2 ^ 31 - 1 ∧
    compare (fun _ => 0) (⟨0, 0⟩ : SV) (⟨2 ^ 31, 0⟩ : SV) = -2 ^ 31 ∧
    compare (fun _ => 0) (⟨2 ^ 31, 0⟩ : SV) (⟨0, 0⟩ : SV) ≠
      -compare (fun _ => 0) (⟨0, 0⟩ : SV) (⟨2 ^ 31, 0⟩ : SV) := by
  refine ⟨by decide, by decide, by decide⟩

/-- C6 amended: v.compare(v) = 0 holds for every view unconditionally, and the
    antisymmetry v.compare(w) = -w.compare(v) holds whenever the difference of
    the two lengths is smaller than 2^31 in absolute value (at difference 2^31
    and beyond the clamp breaks it, as the counterexample shows). -/
theorem compare_refl_antisym_amended :
    (∀ (mem : Mem) (v : SV), compare mem v v = 0) ∧
    (∀ (mem : Mem) (v w : SV),
      (length v : Int) - (length w : Int) < 2 ^ 31 →
      (length w : Int) - (length v : Int) < 2 ^ 31 →
      compare mem v w = -compare mem w v) := by
  constructor
  · intro mem v
    have h0 : traits_compare mem v.str_ v.str_ (min (length v) (length v)) = 0 :=
      (tc_zero_iff mem (min (length v) (length v)) v.str_ v.str_).2 (fun k hk => rfl)
    simp only [compare]
    rw [h0, if_pos rfl]
    exact s_compare_self (length v)
  · intro mem v w hd1 hd2
    have hmin : min (length w) (length v) = min (length v) (length w) := Nat.min_comm _ _
    have hanti := tc_antisym mem (min (length v) (length w)) v.str_ w.str_
    simp only [compare]
    rw [hmin, hanti]
    by_cases h0 : traits_compare mem v.str_ w.str_ (min (length v) (length w)) = 0
    · rw [h0, neg_zero, if_pos rfl, if_pos rfl]
      exact s_compare_antisym (length v) (length w) hd1 hd2
    · have h0' : -traits_compare mem v.str_ w.str_ (min (length v) (length w)) ≠ 0 := by
        simpa using h0
      rw [if_neg h0, if_neg h0', neg_neg]

/-- C6 witness: reflexivity at a concrete view and antisymmetry at two concrete
    views whose lengths differ by 2, applying the amended theorem. -/
theorem compare_refl_antisym_amended_witness :
    compare (fun _ => 1) (⟨3, 0⟩ : SV) (⟨3, 0⟩ : SV) = 0 ∧
    compare (fun _ => 1) (⟨3, 0⟩ : SV) (⟨1, 0⟩ : SV) =
      -compare (fun _ => 1) (⟨1, 0⟩ : SV) (⟨3, 0⟩ : SV) :=
  ⟨compare_refl_antisym_amended.1 (fun _ => 1) ⟨3, 0⟩,
   compare_refl_antisym_amended.2 (fun _ => 1) ⟨3, 0⟩ ⟨1, 0⟩ (by decide) (by decide)⟩

/-- C2 counterexample: the view with len_ = 131 (flag bit set, length 3) sliced
    as substr(0, 2) yields a view whose witness bit is still set although its end
    address (str_ + 2) differs from the source's end address (str_ + 3), and
    although pos + resultLength = 2 differs from the source length 3 - the claim
    demands the witness be cleared there. -/
theorem substr_witness_counterexample :
    test_safederef_bit (⟨131, 0⟩ : SV).len_ = true ∧
    test_safederef_bit (substr (⟨131, 0⟩ : SV) 0 2).len_ = true ∧
    (substr (⟨131, 0⟩ : SV) 0 2).str_ + length (substr (⟨131, 0⟩ : SV) 0 2) ≠
      (⟨131, 0⟩ : SV).str_ + length (⟨131, 0⟩ : SV) ∧
    0 + length (substr (⟨131, 0⟩ : SV) 0 2) ≠ length (⟨131, 0⟩ : SV) := by
  refine ⟨by decide, by decide, by decide, by decide⟩

/-- C2 amended: substr copies the source's witness bit verbatim - whenever the
    computed result length min(n, length() - pos) does not itself contain the
    flag bit, the produced view's witness bit equals the source view's witness
    bit, regardless of whether the end addresses coincide; in particular a set
    witness is never cleared by slicing. -/
theorem substr_witness_amended (v : SV) (pos n : Nat)
    (h : test_safederef_bit (min n (usub (length v) pos)) = false) :
    test_safederef_bit (substr v pos n).len_ = test_safederef_bit v.len_ := by
  simp only [substr]
  split
  · next hc =>
    show test_safederef_bit (set_safederef_bit (min n (usub (length v) pos))) =
      test_safederef_bit v.len_
    rw [test_set]
    exact hc.symm
  · next hc =>
    show test_safederef_bit (min n (usub (length v) pos)) = test_safederef_bit v.len_
    rw [h]
    simp only [Bool.not_eq_true] at hc
    exact hc.symm

/-- C2 amended witness: the amended substr witness rule applied at the concrete
    view with len_ = 131 sliced as substr(1, 2). -/
theorem substr_witness_amended_witness :
    test_safederef_bit (min 2 (usub (length (⟨131, 0⟩ : SV)) 1)) = false ∧
    test_safederef_bit (substr (⟨131, 0⟩ : SV) 1 2).len_ =
      test_safederef_bit (⟨131, 0⟩ : SV).len_ :=
  ⟨by decide, substr_witness_amended ⟨131, 0⟩ 1 2 (by decide)⟩

/-- C1: evaluation of is_cstring at its failing inputs.  For the view with
    len_ = 130 (witness bit set, length 2) over the buffer 97, 98, 0 the byte at
    data()[length()] is the zero character, yet is_cstring returns false; over
    the buffer 97, 98, 99 that byte is nonzero, yet is_cstring returns true.
    The source tests str_[length()] != 0 where its own documentation (a witness
    that data() is null-terminated, never a false positive) requires == 0. -/
theorem is_cstring_inverted_eval :
    test_safederef_bit (⟨130, 0⟩ : SV).len_ = true ∧
    (fun a => if a = 0 then 97 else if a = 1 then 98 else 0 : Mem)
      ((⟨130, 0⟩ : SV).str_ + length (⟨130, 0⟩ : SV)) = 0 ∧
    is_cstring (fun a => if a = 0 then 97 else if a = 1 then 98 else 0) (⟨130, 0⟩ : SV) = false ∧
    (fun a => if a < 3 then a + 97 else 0 : Mem)
      ((⟨130, 0⟩ : SV).str_ + length (⟨130, 0⟩ : SV)) ≠ 0 ∧
    is_cstring (fun a => if a < 3 then a + 97 else 0) (⟨130, 0⟩ : SV) = true := by
  refine ⟨by decide, by decide, by decide, by decide, by decide⟩

/-- C3: evaluation of substr at the out-of-range position.  For the view of
    length 3, substr(5, npos) does not raise any failure (the embedded function
    is total because the source body has no bounds check and no throw, despite
    its noexcept(false) signature): it returns the view at str_ + 5 whose stored
    length is the wrapped value 2^64 - 2 = npos - 1.  The compare(pos1, n1, str)
    overload that delegates to substr likewise returns a value (-130 here)
    instead of raising. -/
theorem substr_no_bounds_check_eval :
    substr (⟨3, 0⟩ : SV) 5 npos = (⟨npos - 1, 5⟩ : SV) ∧
    compare_sub (fun _ => 0) (⟨3, 0⟩ : SV) 5 npos (⟨0, 0⟩ : SV) = -130 := by
  refine ⟨by decide, by decide⟩

/-- C4: evaluation of remove_prefix and remove_suffix at a concrete view of
    length 3.  remove_prefix(1) advances the pointer but leaves the length at 3
    (the claim demands 2), and remove_suffix(1) changes nothing (the claim
    demands length 2): the statement this->length() -= n assigns to the prvalue
    temporary returned by length() and never updates len_. -/
theorem removePrefix_eval :
    removePrefix (⟨3, 5⟩ : SV) 1 = (⟨3, 6⟩ : SV) ∧
    length (removePrefix (⟨3, 5⟩ : SV) 1) = 3 ∧
    removeSuffix (⟨3, 5⟩ : SV) 1 = (⟨3, 5⟩ : SV) ∧
    length (removeSuffix (⟨3, 5⟩ : SV) 1) = 3 := by
  refine ⟨by decide, by decide, by decide, by decide⟩

/-- C10: evaluation of the flag mask and the verbatim-length constructor.  The
    mask 1ull << (sizeof(size_t) - 1) is 2^7 = 128, bit 7, not the
    most-significant bit: constructing with length 128 (below 2^63) yields
    length() = 0 with the witness bit testing set, and constructing with length
    2^63 (most-significant bit set) yields length() = 2^63 with the witness bit
    testing clear - the opposite of the claim on both counts. -/
theorem flag_mask_eval :
    safederef_flag_mask = 128 ∧
    length (ofPtrLen 0 128) = 0 ∧
    test_safederef_bit (ofPtrLen 0 128).len_ = true ∧
    length (ofPtrLen 0 (2 ^ 63)) = 2 ^ 63 ∧
    test_safederef_bit (ofPtrLen 0 (2 ^ 63)).len_ = false := by
  refine ⟨by decide, by decide, by decide, by decide, by decide⟩

end BevSV
